import Mathlib

/- Verification of the Slovak public-partners register scraper (app.py).

   Text is modelled as `List Char`. In the scraper pipeline every string
   handed to the parsers has already been ASCII-transliterated by
   `convert_to_english` (the whole HTML page is transliterated before it is
   parsed), so ASCII models of `str.lower`, `str.strip` and of the regex
   class `\s` are faithful on the reachable inputs. -/

/-- ASCII model of the Python whitespace class used by `str.strip()` and `\s`. -/
def pyIsSpace (c : Char) : Bool :=
  c = ' ' || c = '\t' || c = '\n' || c = '\r' || c = '\x0b' || c = '\x0c'

/-- Characters stripped by `strip(", ")` in `parse_address`. -/
def isCS (c : Char) : Bool := c = ',' || c = ' '

/-- Strip characters satisfying `p` from both ends (Python `str.strip(chars)`). -/
def stripBoth (p : Char → Bool) (l : List Char) : List Char :=
  ((l.dropWhile p).reverse.dropWhile p).reverse

/-- Python `str.strip()` (no argument: strip whitespace). -/
def pyStrip (l : List Char) : List Char := stripBoth pyIsSpace l

/-- Python `str.strip(", ")`. -/
def stripCS (l : List Char) : List Char := stripBoth isCS l

/-- ASCII model of `str.lower` (pipeline strings are ASCII-transliterated). -/
def lowerL (l : List Char) : List Char := l.map Char.toLower

/-- Python `str.startswith(pat)`: `pat` begins the string. -/
def leadsWith : List Char → List Char → Bool
  | [], _ => true
  | _ :: _, [] => false
  | a :: as, b :: bs => a = b && leadsWith as bs

/-- Python substring test `pat in s`. -/
def containsSub (pat : List Char) : List Char → Bool
  | [] => pat.isEmpty
  | c :: rest => leadsWith pat (c :: rest) || containsSub pat rest

/-- The list `pat` occurs contiguously somewhere inside `s`. -/
def occursIn (pat s : List Char) : Prop := ∃ l r, s = l ++ pat ++ r

theorem leadsWith_exists (pat : List Char) :
    ∀ s : List Char, leadsWith pat s = true ↔ ∃ t, s = pat ++ t := by
  induction pat with
  | nil => intro s; simp [leadsWith]
  | cons a as ih =>
    intro s
    cases s with
    | nil =>
      simp [leadsWith]
    | cons b bs =>
      simp only [leadsWith, Bool.and_eq_true, decide_eq_true_eq, ih bs]
      constructor
      · rintro ⟨rfl, t, rfl⟩; exact ⟨t, rfl⟩
      · rintro ⟨t, ht⟩
        cases ht
        exact ⟨rfl, t, rfl⟩

theorem leadsWith_refl (pat : List Char) : leadsWith pat pat = true := by
  rw [leadsWith_exists]; exact ⟨[], by simp⟩

theorem containsSub_iff (pat : List Char) :
    ∀ s : List Char, containsSub pat s = true ↔ occursIn pat s := by
  intro s
  induction s with
  | nil =>
    simp only [containsSub, List.isEmpty_iff, occursIn]
    constructor
    · rintro rfl; exact ⟨[], [], rfl⟩
    · rintro ⟨l, r, h⟩
      rcases List.append_eq_nil.mp h.symm with ⟨h1, h2⟩
      exact (List.append_eq_nil.mp h1).2
  | cons c rest ih =>
    simp only [containsSub, Bool.or_eq_true, leadsWith_exists, ih, occursIn]
    constructor
    · rintro (⟨t, ht⟩ | ⟨l, r, hr⟩)
      · exact ⟨[], t, by simp [ht]⟩
      · exact ⟨c :: l, r, by simp [hr]⟩
    · rintro ⟨l, r, hr⟩
      cases l with
      | nil => exact Or.inl ⟨r, by simpa using hr⟩
      | cons x xs =>
        cases hr
        exact Or.inr ⟨xs, r, rfl⟩

theorem occursIn_cons {pat : List Char} {c : Char} {s : List Char}
    (h : occursIn pat s) : occursIn pat (c :: s) := by
  rcases h with ⟨l, r, rfl⟩
  exact ⟨c :: l, r, rfl⟩

theorem occursIn_append_self (pat l : List Char) : occursIn pat (l ++ pat) :=
  ⟨l, [], by simp⟩

theorem occursIn_map {pat s : List Char} (f : Char → Char)
    (h : occursIn pat s) : occursIn (pat.map f) (s.map f) := by
  rcases h with ⟨l, r, rfl⟩
  exact ⟨l.map f, r.map f, by simp⟩

/-- Every nonempty list is some list with one last element appended. -/
theorem exists_last {l : List Char} (h : l ≠ []) : ∃ t a, l = t ++ [a] := by
  induction l with
  | nil => exact absurd rfl h
  | cons c rest ih =>
    cases rest with
    | nil => exact ⟨[], c, rfl⟩
    | cons d ds =>
      rcases ih (by simp) with ⟨t, a, ht⟩
      exact ⟨c :: t, a, by simp [ht]⟩

theorem stripBoth_nil (p : Char → Bool) : stripBoth p [] = [] := rfl

/-- The two-sided strip is a right strip of a left strip. -/
theorem stripBoth_eq_rd (p : Char → Bool) (l : List Char) :
    stripBoth p l = List.rdropWhile p (l.dropWhile p) := rfl

theorem length_dw_le (p : Char → Bool) (l : List Char) :
    (l.dropWhile p).length ≤ l.length :=
  (List.dropWhile_suffix p).sublist.length_le

theorem length_rd_le (p : Char → Bool) (l : List Char) :
    (List.rdropWhile p l).length ≤ l.length := by
  have h := length_dw_le p l.reverse
  simpa [List.rdropWhile] using h

/-- If neither end of `l` satisfies `p`, stripping is the identity. -/
theorem stripBoth_id_of {p : Char → Bool} {l : List Char}
    (hh : ∀ x xs, l = x :: xs → p x = false)
    (hl : ∀ t a, l = t ++ [a] → p a = false) :
    stripBoth p l = l := by
  cases hcase : l with
  | nil => rfl
  | cons x xs =>
    have hx : p x = false := hh x xs hcase
    have hd : (x :: xs).dropWhile p = x :: xs := by
      rw [List.dropWhile_cons, hx]; simp
    rcases exists_last (l := x :: xs) (by simp) with ⟨t, a, hta⟩
    have ha : p a = false := hl t a (hcase.trans hta)
    rw [stripBoth_eq_rd, hd, hta, List.rdropWhile_concat]
    simp [ha]

/-- If stripping is the identity on a nonempty list, its head fails `p`. -/
theorem strip_head {p : Char → Bool} {l : List Char} (hid : stripBoth p l = l) :
    ∀ x xs, l = x :: xs → p x = false := by
  intro x xs hl
  cases hpx : p x with
  | false => rfl
  | true =>
    exfalso
    have h1 : (stripBoth p l).length ≤ xs.length := by
      rw [stripBoth_eq_rd, hl, List.dropWhile_cons, hpx]
      simp only [if_true]
      exact (length_rd_le p _).trans (length_dw_le p xs)
    rw [hid, hl] at h1
    simp at h1

/-- The `dropWhile` of a list ending in `a` is empty or still ends in `a`. -/
theorem dropWhile_last (p : Char → Bool) :
    ∀ t (a : Char), (t ++ [a]).dropWhile p = [] ∨
      ∃ t2, (t ++ [a]).dropWhile p = t2 ++ [a] := by
  intro t
  induction t with
  | nil =>
    intro a
    cases h : p a with
    | true => exact Or.inl (by simp [List.dropWhile, h])
    | false => exact Or.inr ⟨[], by simp [List.dropWhile, h]⟩
  | cons x xs ih =>
    intro a
    cases h : p x with
    | true =>
      rcases ih a with h2 | ⟨t2, ht2⟩
      · exact Or.inl (by simp [List.dropWhile_cons, h, h2])
      · refine Or.inr ⟨t2, ?_⟩
        rw [List.cons_append, List.dropWhile_cons, h]
        simpa using ht2
    | false =>
      exact Or.inr ⟨x :: xs, by rw [List.cons_append, List.dropWhile_cons, h]; simp⟩

/-- If stripping is the identity on a list ending in `a`, then `a` fails `p`. -/
theorem strip_last {p : Char → Bool} {l : List Char} (hid : stripBoth p l = l) :
    ∀ t a, l = t ++ [a] → p a = false := by
  intro t a hl
  cases hpa : p a with
  | false => rfl
  | true =>
    exfalso
    rcases dropWhile_last p t a with hnil | ⟨t2, ht2⟩
    · have h0 : stripBoth p l = [] := by
        rw [stripBoth_eq_rd, hl, hnil]; rfl
      rw [hid, hl] at h0
      simp at h0
    · have h1 : (stripBoth p l).length ≤ t2.length := by
        rw [stripBoth_eq_rd, hl, ht2, List.rdropWhile_concat]
        simp only [hpa, if_true]
        exact length_rd_le p t2
      have h4 : (t2 ++ [a]).length ≤ (t ++ [a]).length := by
        rw [← ht2]; exact length_dw_le p _
      rw [hid, hl] at h1
      simp at h1 h4
      omega

/-- Python `str.split(sep)` for a single separator character. -/
def splitOnChar (sep : Char) : List Char → List (List Char)
  | [] => [[]]
  | c :: rest =>
    match splitOnChar sep rest with
    | [] => if c = sep then [[], []] else [[c]]
    | t :: ts => if c = sep then [] :: t :: ts else (c :: t) :: ts

theorem splitOnChar_ne_nil (sep : Char) : ∀ l, splitOnChar sep l ≠ [] := by
  intro l
  cases l with
  | nil => simp [splitOnChar]
  | cons c rest =>
    simp only [splitOnChar]
    split <;> (split <;> simp)

/-- Splitting a separator-free list yields the single piece. -/
theorem splitOnChar_not_mem {sep : Char} :
    ∀ {l : List Char}, sep ∉ l → splitOnChar sep l = [l] := by
  intro l
  induction l with
  | nil => intro _; rfl
  | cons c rest ih =>
    intro h
    have hc : ¬ c = sep := fun hcs => h (by simp [hcs])
    have hr : sep ∉ rest := fun hm => h (List.mem_cons_of_mem _ hm)
    simp only [splitOnChar, ih hr]
    simp [hc]

/-- Peeling a separator-free part off the front of a split. -/
theorem splitOnChar_append {sep : Char} :
    ∀ {l : List Char}, sep ∉ l → ∀ r,
      splitOnChar sep (l ++ sep :: r) = l :: splitOnChar sep r := by
  intro l
  induction l with
  | nil =>
    intro _ r
    simp only [List.nil_append, splitOnChar]
    rcases h : splitOnChar sep r with _ | ⟨t, ts⟩
    · exact absurd h (splitOnChar_ne_nil sep r)
    · simp
  | cons c rest ih =>
    intro h r
    have hc : ¬ c = sep := fun hcs => h (by simp [hcs])
    have hr : sep ∉ rest := fun hm => h (List.mem_cons_of_mem _ hm)
    simp only [List.cons_append, splitOnChar, List.append_eq]
    rw [ih hr r]
    simp [hc]

/-- Python `s.split(pat)[0]` for a nonempty substring separator: the prefix of
    `s` before the first occurrence of `pat`, or all of `s` when absent. -/
def takeToSub (pat : List Char) : List Char → List Char
  | [] => []
  | c :: rest =>
    if pat ≠ [] ∧ leadsWith pat (c :: rest) = true then []
    else c :: takeToSub pat rest

/-- When `pat` occurs nowhere in `s`, `s.split(pat)[0]` is `s` itself. -/
theorem takeToSub_of_not_occurs {pat : List Char} :
    ∀ {s : List Char}, ¬ occursIn pat s → takeToSub pat s = s := by
  intro s
  induction s with
  | nil => intro _; rfl
  | cons c rest ih =>
    intro h
    have h1 : ¬ (pat ≠ [] ∧ leadsWith pat (c :: rest) = true) := by
      rintro ⟨hne, hlw⟩
      rcases (leadsWith_exists pat (c :: rest)).mp hlw with ⟨t, ht⟩
      exact h ⟨[], t, by simp [ht]⟩
    have h2 : ¬ occursIn pat rest := fun ho => h (occursIn_cons ho)
    simp only [takeToSub, if_neg h1, ih h2]

/-- Fuel-driven core of Python `str.replace(pat, "")`: scan left to right and
    drop each non-overlapping occurrence of `pat`.  The fuel only bounds the
    recursion depth; with fuel at least `s.length` it never runs out because
    every step consumes at least one character. -/
def replAux (pat : List Char) : Nat → List Char → List Char
  | _, [] => []
  | 0, s => s
  | n + 1, c :: rest =>
    if leadsWith pat (c :: rest) = true ∧ pat ≠ [] then
      replAux pat n (rest.drop (pat.length - 1))
    else c :: replAux pat n rest

/-- Python `s.replace(pat, "")` for nonempty `pat`. -/
def replaceAll (pat s : List Char) : List Char := replAux pat s.length s

/-- Replacing a pattern that occurs nowhere changes nothing. -/
theorem replAux_of_not_occurs {pat : List Char} :
    ∀ (n : Nat) {s : List Char}, ¬ occursIn pat s → replAux pat n s = s := by
  intro n
  induction n with
  | zero => intro s _; cases s <;> rfl
  | succ m ih =>
    intro s h
    cases s with
    | nil => rfl
    | cons c rest =>
      have h1 : ¬ (leadsWith pat (c :: rest) = true ∧ pat ≠ []) := by
        rintro ⟨hlw, _⟩
        rcases (leadsWith_exists pat (c :: rest)).mp hlw with ⟨t, ht⟩
        exact h ⟨[], t, by simp [ht]⟩
      have h2 : ¬ occursIn pat rest := fun ho => h (occursIn_cons ho)
      simp only [replAux, if_neg h1, ih h2]

theorem replaceAll_of_not_occurs {pat s : List Char} (h : ¬ occursIn pat s) :
    replaceAll pat s = s := replAux_of_not_occurs s.length h

theorem replAux_cons_neg (pat : List Char) (n : Nat) (c : Char) (rest : List Char)
    (h : ¬ (leadsWith pat (c :: rest) = true ∧ pat ≠ [])) :
    replAux pat (n + 1) (c :: rest) = c :: replAux pat n rest := by
  simp only [replAux, if_neg h]

theorem replAux_cons_pos (pat : List Char) (n : Nat) (c : Char) (rest : List Char)
    (h : leadsWith pat (c :: rest) = true ∧ pat ≠ []) :
    replAux pat (n + 1) (c :: rest) = replAux pat n (rest.drop (pat.length - 1)) := by
  simp only [replAux, if_pos h]

theorem leadsWith_cons_ne {a b : Char} (as bs : List Char) (h : a ≠ b) :
    leadsWith (a :: as) (b :: bs) = false := by
  simp [leadsWith, h]

theorem replAux_nil (pat : List Char) (n : Nat) : replAux pat n [] = [] := by
  cases n <;> rfl

/-- Removing the single trailing occurrence of a country name `C` from
    `l ++ ", " ++ C` when `C` does not occur in `l`, contains no comma and
    does not start with whitespace: exactly `l ++ ", "` remains.  This is the
    behaviour of `city_country.replace(c, "")` in `parse_address` on a
    well-formed remainder. -/
theorem replAux_tail {C : List Char} (hne : C ≠ []) (hcomma : ',' ∉ C)
    (hsp : ∀ x xs, C = x :: xs → pyIsSpace x = false) :
    ∀ (l : List Char) (n : Nat), ¬ occursIn C l →
      (l ++ ',' :: ' ' :: C).length ≤ n →
      replAux C n (l ++ ',' :: ' ' :: C) = l ++ [',', ' '] := by
  intro l
  induction l with
  | nil =>
    intro n _ hn
    rcases C with _ | ⟨c0, cs⟩
    · exact absurd rfl hne
    have hc0 : c0 ≠ ',' := fun h => hcomma (h ▸ List.mem_cons_self c0 cs)
    have hc0sp : pyIsSpace c0 = false := hsp c0 cs rfl
    have hc0sp' : c0 ≠ ' ' := by
      intro h
      rw [h] at hc0sp
      simp [pyIsSpace] at hc0sp
    simp only [List.nil_append, List.length_cons] at hn ⊢
    obtain ⟨n1, rfl⟩ : ∃ n1, n = n1 + 1 := ⟨n - 1, by omega⟩
    rw [replAux_cons_neg _ _ _ _ (by
      rintro ⟨hlw, _⟩
      rw [leadsWith_cons_ne cs (' ' :: c0 :: cs) hc0] at hlw
      exact Bool.false_ne_true hlw)]
    obtain ⟨n2, rfl⟩ : ∃ n2, n1 = n2 + 1 := ⟨n1 - 1, by omega⟩
    rw [replAux_cons_neg _ _ _ _ (by
      rintro ⟨hlw, _⟩
      rw [leadsWith_cons_ne cs (c0 :: cs) hc0sp'] at hlw
      exact Bool.false_ne_true hlw)]
    obtain ⟨n3, rfl⟩ : ∃ n3, n2 = n3 + 1 := ⟨n2 - 1, by omega⟩
    rw [replAux_cons_pos _ _ _ _ ⟨leadsWith_refl _, hne⟩]
    have hdrop : cs.drop ((c0 :: cs).length - 1) = [] := by simp
    rw [hdrop, replAux_nil]
  | cons x xs ih =>
    intro n hocc hn
    have hx : ¬ (leadsWith C (x :: xs ++ ',' :: ' ' :: C) = true ∧ C ≠ []) := by
      rintro ⟨hlw, _⟩
      rcases (leadsWith_exists C _).mp hlw with ⟨t, ht⟩
      rcases List.append_eq_append_iff.mp ht with ⟨a2, h1, h2⟩ | ⟨c2, h1, _⟩
      · rcases a2 with _ | ⟨y, ys⟩
        · exact hocc ⟨[], [], by simp [h1]⟩
        · have hy : y = ',' := by
            simp only [List.cons_append] at h2
            exact (List.cons_eq_cons.mp h2).1.symm
          apply hcomma
          rw [h1, hy]
          exact List.mem_append_right _ (List.mem_cons_self _ _)
      · exact hocc ⟨[], c2, by simpa using h1⟩
    obtain ⟨m, rfl⟩ : ∃ m, n = m + 1 := ⟨n - 1, by simp at hn; omega⟩
    rw [List.cons_append, replAux_cons_neg _ _ _ _ (by simpa using hx)]
    rw [ih m (fun ho => hocc (occursIn_cons ho)) (by simp at hn ⊢; omega)]
    simp

/-- Group 2 of the postal-code regex: skip the greedy `\s*` run, then `(.*)`
    matches up to the end of the line (`.` does not cross a newline). -/
def grp2 (t : List Char) : List Char :=
  (t.dropWhile pyIsSpace).takeWhile (fun x => x ≠ '\n')

/-- Model of `re.match(r"(\d{3}\s?\d{2})\s*(.*)", s)`: `None`, or the pair of
    group 1 (the postal-code text, space preserved) and group 2 (the rest).
    `re.match` anchors at the start; `\s?` is tried greedily and backtracks to
    the empty match when the two digits do not follow the whitespace char. -/
def zipMatch (s : List Char) : Option (List Char × List Char) :=
  match s with
  | a :: b :: c :: t =>
    if a.isDigit && b.isDigit && c.isDigit then
      match t with
      | d :: rest1 =>
        if pyIsSpace d then
          match rest1 with
          | e :: f :: t3 =>
            if e.isDigit && f.isDigit then some ([a, b, c, d, e, f], grp2 t3)
            else none
          | _ => none
        else
          match rest1 with
          | e :: t2 =>
            if d.isDigit && e.isDigit then some ([a, b, c, d, e], grp2 t2)
            else none
          | [] => none
      | [] => none
    else none
  | _ => none

theorem intercalate_pair (s a b : List Char) :
    List.intercalate s [a, b] = a ++ s ++ b := by
  simp [List.intercalate, List.intersperse]

/-- Decimal digit characters of a natural number (fuel-driven, fuel `n + 1`
    always suffices). -/
def natToCharsAux : Nat → Nat → List Char
  | 0, _ => []
  | fuel + 1, n =>
    if n < 10 then [Char.ofNat (48 + n)]
    else natToCharsAux fuel (n / 10) ++ [Char.ofNat (48 + n % 10)]

/-- Decimal representation of a natural number, as in the f-string URLs. -/
def natToChars (n : Nat) : List Char := natToCharsAux (n + 1) n

/-- Python `int()` on a digit string (used to sort cache URLs by ID). -/
def natOfChars (l : List Char) : Nat :=
  l.foldl (fun acc c => acc * 10 + (c.toNat - 48)) 0

/-- NFKD decompositions of the non-ASCII characters relevant to this
    development, modelling the interface of the external call
    `unicodedata.normalize("NFKD", text)`.  The listed Slovak letters carry
    their real canonical decompositions (base letter plus combining mark).
    Characters outside this table are modelled as having no decomposition,
    which is exact for ASCII and for the characters used below (for example
    the Cyrillic letter sha and the euro sign decompose to themselves). -/
def nfkdTable : List (Char × List Char) :=
  [('á', ['a', '́']), ('ä', ['a', '̈']), ('č', ['c', '̌']),
   ('ď', ['d', '̌']), ('é', ['e', '́']), ('í', ['i', '́']),
   ('ĺ', ['l', '́']), ('ľ', ['l', '̌']), ('ň', ['n', '̌']),
   ('ó', ['o', '́']), ('ô', ['o', '̂']), ('ŕ', ['r', '́']),
   ('š', ['s', '̌']), ('ť', ['t', '̌']), ('ú', ['u', '́']),
   ('ý', ['y', '́']), ('ž', ['z', '̌']), ('Á', ['A', '́']),
   ('Č', ['C', '̌']), ('Š', ['S', '̌']), ('Ž', ['Z', '̌'])]

/-- NFKD decomposition of one character.  ASCII characters never decompose. -/
def nfkdChar (c : Char) : List Char :=
  if c.toNat < 128 then [c] else (nfkdTable.lookup c).getD [c]

/-- NFKD decomposition of a text. -/
def nfkd (l : List Char) : List Char := l.flatMap nfkdChar

/-- The `encode("ascii", "ignore").decode("ascii")` step: keep ASCII only. -/
def asciiOnly (l : List Char) : List Char := l.filter (fun c => c.toNat < 128)

/-- `SlovakPartnerScraper.convert_to_english`: a falsy input (`None` or the
    empty string) maps to `None`; otherwise NFKD-decompose and drop every
    non-ASCII code point. -/
def convert_to_english : Option (List Char) → Option (List Char)
  | none => none
  | some t => if t.isEmpty then none else some (asciiOnly (nfkd t))

theorem nfkdChar_ascii {c : Char} (h : c.toNat < 128) : nfkdChar c = [c] := by
  simp [nfkdChar, h]

theorem mem_asciiOnly_lt {c : Char} {l : List Char} (h : c ∈ asciiOnly l) :
    c.toNat < 128 := by
  have := List.of_mem_filter h
  simpa using this

/-- NFKD of an all-ASCII text is that text, and the ASCII filter keeps it. -/
theorem asciiOnly_nfkd_fixed {l : List Char} (h : ∀ c ∈ l, c.toNat < 128) :
    asciiOnly (nfkd l) = l := by
  have h1 : nfkd l = l := by
    induction l with
    | nil => rfl
    | cons c rest ih =>
      have hc : c.toNat < 128 := h c (List.mem_cons_self _ _)
      have hr : ∀ x ∈ rest, x.toNat < 128 := fun x hx => h x (List.mem_cons_of_mem _ hx)
      simp only [nfkd, List.flatMap_cons] at ih ⊢
      rw [nfkdChar_ascii hc, ih hr]
      rfl
  rw [h1]
  exact List.filter_eq_self.mpr (fun c hc => by simpa using h c hc)

/-- A text containing an ASCII character never normalizes to the empty
    string: the ASCII character survives both the decomposition and the
    ASCII filter. -/
theorem convert_ne_empty_of_ascii {t : List Char} {c : Char} (hc : c ∈ t)
    (hlt : c.toNat < 128) : convert_to_english (some t) ≠ some [] := by
  have hne : t.isEmpty = false := by
    cases t with
    | nil => cases hc
    | cons x xs => rfl
  simp only [convert_to_english, hne, Bool.false_eq_true, if_false]
  intro h
  have hmem : c ∈ nfkd t := by
    unfold nfkd
    exact List.mem_flatMap.mpr ⟨c, hc, by rw [nfkdChar_ascii hlt]; exact List.mem_singleton.mpr rfl⟩
  have hmem2 : c ∈ asciiOnly (nfkd t) := by
    unfold asciiOnly
    exact List.mem_filter.mpr ⟨hmem, by simpa using hlt⟩
  rw [Option.some_inj.mp h] at hmem2
  cases hmem2

/-- C1 counterexample: the normalizer is not idempotent.  The Cyrillic
    letter sha has no NFKD decomposition and no ASCII content, so
    `normalize("ш") = ""`, while `normalize("") = None` because the empty
    string is falsy — hence `normalize(normalize("ш")) ≠ normalize("ш")`. -/
theorem C1_counterexample :
    convert_to_english (convert_to_english (some ['ш'])) ≠
      convert_to_english (some ['ш']) := by
  decide

/-- C1 amended: `normalize(None) = None`, and normalization is idempotent on
    every input whose normalization is not the empty string.  (The only
    failures of idempotence are inputs that normalize to `""`, which is
    possible exactly when the input is nonempty but has no ASCII content
    after decomposition; `normalize("")` is `None`, not `""`.) -/
theorem C1_amended_idempotent (t : Option (List Char))
    (h : convert_to_english t ≠ some []) :
    convert_to_english none = none ∧
      convert_to_english (convert_to_english t) = convert_to_english t := by
  refine ⟨rfl, ?_⟩
  cases t with
  | none => rfl
  | some s =>
    cases hs : s.isEmpty with
    | true =>
      simp [convert_to_english, hs]
    | false =>
      simp only [convert_to_english, hs, Bool.false_eq_true, if_false]
      have hr : asciiOnly (nfkd s) ≠ [] := by
        intro hcontra
        apply h
        simp [convert_to_english, hs, hcontra]
      have hre : (asciiOnly (nfkd s)).isEmpty = false := by
        cases hx : asciiOnly (nfkd s) with
        | nil => exact absurd hx hr
        | cons y ys => rfl
      simp only [convert_to_english, hre, Bool.false_eq_true, if_false]
      rw [asciiOnly_nfkd_fixed (fun c hc => mem_asciiOnly_lt hc)]

/-- C1 amended witness at the one-character ASCII input "a". -/
theorem C1_amended_witness :
    convert_to_english (some ['a']) ≠ some [] ∧
      (convert_to_english none = none ∧
        convert_to_english (convert_to_english (some ['a'])) =
          convert_to_english (some ['a'])) :=
  ⟨by decide, C1_amended_idempotent (some ['a']) (by decide)⟩

/-- C10 counterexample: it is not true that every non-null normalizer result
    is a non-empty string or the normalization of a string containing an
    ASCII character.  The euro sign has no decomposition and no ASCII
    content, so `normalize("€") = some ""`, and no ASCII-containing string
    normalizes to the empty string. -/
theorem C10_counterexample :
    ¬ (∀ s r, convert_to_english (some s) = some r →
        r ≠ [] ∨ ∃ t, (∃ c ∈ t, c.toNat < 128) ∧
          convert_to_english (some t) = some r) := by
  intro h
  rcases h ['€'] [] (by decide) with h1 | ⟨t, ⟨c, hc, hlt⟩, ht⟩
  · exact h1 rfl
  · exact convert_ne_empty_of_ascii hc hlt ht

/-- C10 amended: every falsy input (`None` or `""`) normalizes to `None`,
    and a non-null result is a non-empty string exactly when the NFKD
    decomposition of the input contains an ASCII character; otherwise the
    non-null result is the empty string (not `None`). -/
theorem C10_amended_falsy_null (s : List Char) (h : s ≠ []) :
    convert_to_english none = none ∧ convert_to_english (some []) = none ∧
      ∃ r, convert_to_english (some s) = some r ∧
        (r ≠ [] ↔ ∃ c ∈ nfkd s, c.toNat < 128) := by
  refine ⟨rfl, rfl, asciiOnly (nfkd s), ?_, ?_⟩
  · have hs : s.isEmpty = false := by
      cases s with
      | nil => exact absurd rfl h
      | cons x xs => rfl
    simp [convert_to_english, hs]
  · constructor
    · intro hne
      rcases List.exists_mem_of_ne_nil _ hne with ⟨c, hc⟩
      exact ⟨c, List.mem_of_mem_filter hc, mem_asciiOnly_lt hc⟩
    · rintro ⟨c, hc, hlt⟩ hcontra
      have : c ∈ asciiOnly (nfkd s) :=
        List.mem_filter.mpr ⟨hc, by simpa using hlt⟩
      rw [hcontra] at this
      cases this

/-- C10 amended witness at the euro-sign input, which has no ASCII content. -/
theorem C10_amended_witness :
    (['€'] : List Char) ≠ [] ∧
      (convert_to_english none = none ∧ convert_to_english (some []) = none ∧
        ∃ r, convert_to_english (some ['€']) = some r ∧
          (r ≠ [] ↔ ∃ c ∈ nfkd ['€'], c.toNat < 128)) :=
  ⟨by decide, C10_amended_falsy_null ['€'] (by decide)⟩

/-- The separator `", "` used to rejoin address segments. -/
def commaSpace : List Char := ", ".toList

theorem commaSpace_eq : commaSpace = [',', ' '] := rfl

/-- The fixed gazetteer of known country names from `parse_address`, in the
    exact source order (the scan order is the tie-break). -/
def countries : List (List Char) :=
  ["Slovenska republika".toList, "Turecka republika".toList, "Hongkong".toList,
   "Holandske kralovstvo".toList, "Polska republika".toList,
   "Kajmanie ostrovy".toList, "Rakuska republika".toList,
   "Talianska republika".toList, "Nemecka spolkova republika".toList,
   "Spojene staty americke".toList, "Spojene arabske emiraty".toList,
   "Ruska federacia".toList, "Kanada".toList, "Bosna a Hercegovina".toList,
   "Indicka republika".toList, "Ceska republika".toList]

/-- The Python dict returned by `parse_address`, as an association list from
    key to JSON value (`none` is JSON null).  The empty dict is `[]`. -/
def AddrDict : Type := List (String × Option (List Char))

instance : DecidableEq AddrDict := by
  unfold AddrDict
  infer_instance

/-- Reading a field of the address dict; a missing key reads as null, which
    is Python `dict.get(key)`. -/
def fieldOf (d : AddrDict) (k : String) : Option (List Char) :=
  (d.lookup k).getD none

/-- `SlovakPartnerScraper.parse_address`.  Traces the source line by line:
    falsy input gives the empty dict; otherwise strip, split on commas and
    strip each part; with at least two parts, try the postal-code regex on
    the rejoined tail; on a match, scan the gazetteer case-insensitively,
    remove the first hit (exact-case `str.replace`) from the remainder and
    strip `", "`; fall back to a line-only dict in every other case. -/
def parse_address : Option (List Char) → AddrDict
  | none => []
  | some full_address =>
    if full_address.isEmpty then [] else
    let address := pyStrip full_address
    let parts := (splitOnChar ',' address).map pyStrip
    match parts with
    | p0 :: p1 :: rest =>
      match zipMatch (List.intercalate commaSpace (p1 :: rest)) with
      | some (g1, g2) =>
        let postal_code := pyStrip g1
        let city_country := pyStrip g2
        match countries.find? (fun c => containsSub (lowerL c) (lowerL city_country)) with
        | some c =>
          let cc2 := pyStrip (stripCS (replaceAll c city_country))
          [("Address", some p0), ("PostalCode", some postal_code),
           ("City", if cc2.isEmpty then none else some cc2), ("Country", some c)]
        | none =>
          [("Address", some p0), ("PostalCode", some postal_code),
           ("City", if city_country.isEmpty then none else some city_country),
           ("Country", none)]
      | none =>
        [("Address", some address), ("PostalCode", none), ("City", none),
         ("Country", none)]
    | _ =>
      [("Address", some address), ("PostalCode", none), ("City", none),
       ("Country", none)]

/-- C3: on the empty string and on null, `parse_address` returns the same
    result, the empty dict, whose four fields all read as null (Python
    `dict.get`); the code distinguishes this from the fallback dict, which
    carries the four keys with explicit nulls. -/
theorem C3_empty_and_null :
    parse_address (some []) = parse_address none ∧
      parse_address (some []) = ([] : AddrDict) ∧
      fieldOf (parse_address (some [])) "Address" = none ∧
      fieldOf (parse_address (some [])) "PostalCode" = none ∧
      fieldOf (parse_address (some [])) "City" = none ∧
      fieldOf (parse_address (some [])) "Country" = none :=
  ⟨rfl, rfl, rfl, rfl, rfl, rfl⟩

/-- C6: the parser is total by construction and never guesses: for every
    nonempty input, if there are fewer than two comma segments or the
    rejoined tail does not start with the postal-code pattern, the result is
    the fallback dict: AddressLine is the raw stripped text and PostalCode,
    City and Country are null. -/
theorem C6_fallback_total (s : List Char) (hne : s ≠ [])
    (h : ((splitOnChar ',' (pyStrip s)).map pyStrip).length < 2 ∨
      zipMatch (List.intercalate commaSpace
        (((splitOnChar ',' (pyStrip s)).map pyStrip).tail)) = none) :
    parse_address (some s) =
      [("Address", some (pyStrip s)), ("PostalCode", none), ("City", none),
       ("Country", none)] := by
  have hne2 : s.isEmpty = false := by
    cases s with
    | nil => exact absurd rfl hne
    | cons x xs => rfl
  simp only [parse_address, hne2, Bool.false_eq_true, if_false]
  split
  · rename_i p0 p1 rest heq
    rcases h with hlen | hz
    · rw [heq] at hlen
      simp at hlen
      omega
    · rw [heq] at hz
      simp only [List.tail_cons] at hz
      rw [hz]
  · rfl

theorem find_first' {α : Type} (p : α → Bool) :
    ∀ (pre : List α) (c : α) (post : List α), (∀ e ∈ pre, p e = false) →
      p c = true → (pre ++ c :: post).find? p = some c := by
  intro pre
  induction pre with
  | nil =>
    intro c post _ hc
    simp [List.find?_cons, hc]
  | cons a as ih =>
    intro c post hpre hc
    have ha : p a = false := hpre a (List.mem_cons_self _ _)
    rw [List.cons_append, List.find?_cons, ha]
    exact ih c post (fun e he => hpre e (List.mem_cons_of_mem _ he)) hc

theorem digit_not_space {ch : Char} (h : ch.isDigit = true) :
    pyIsSpace ch = false := by
  cases hq : pyIsSpace ch with
  | false => rfl
  | true =>
    exfalso
    simp only [pyIsSpace, Bool.or_eq_true, decide_eq_true_eq] at hq
    have hd : ch = ' ' ∨ ch = '\t' ∨ ch = '\n' ∨ ch = '\r' ∨ ch = '\x0b' ∨
        ch = '\x0c' := by tauto
    rcases hd with rfl | rfl | rfl | rfl | rfl | rfl <;> exact absurd h (by decide)

theorem digit_ne_comma {ch : Char} (h : ch.isDigit = true) : ch ≠ ',' := by
  rintro rfl
  exact absurd h (by decide)

theorem takeWhile_all {p : Char → Bool} :
    ∀ {l : List Char}, (∀ x ∈ l, p x = true) → l.takeWhile p = l := by
  intro l
  induction l with
  | nil => intro _; rfl
  | cons c rest ih =>
    intro h
    rw [List.takeWhile_cons, h c (List.mem_cons_self _ _)]
    simp only [if_true]
    rw [ih (fun x hx => h x (List.mem_cons_of_mem _ hx))]

theorem pyStrip_cons_space (x : List Char) : pyStrip (' ' :: x) = pyStrip x := by
  have h : pyIsSpace ' ' = true := rfl
  simp [pyStrip, stripBoth, List.dropWhile_cons, h]

theorem last_of_two_decomp {s t1 t2 : List Char} {a1 a2 : Char}
    (h1 : s = t1 ++ [a1]) (h2 : s = t2 ++ [a2]) : a1 = a2 := by
  have e1 : s.getLast? = some a1 := by rw [h1]; exact List.getLast?_concat _
  have e2 : s.getLast? = some a2 := by rw [h2]; exact List.getLast?_concat _
  rw [e1] at e2
  exact Option.some_inj.mp e2

/-- C4 counterexample: the matched country name is NOT removed from the
    remainder when its casing differs.  The scan matches case-insensitively
    but `str.replace` is case-sensitive, so with an upper-case country the
    returned City still contains the matched country's text. -/
theorem C4_counterexample :
    fieldOf (parse_address
        (some ("Street 1, 123 45 Bratislava, SLOVENSKA REPUBLIKA".toList)))
        "Country" = some ("Slovenska republika".toList) ∧
      fieldOf (parse_address
        (some ("Street 1, 123 45 Bratislava, SLOVENSKA REPUBLIKA".toList)))
        "City" = some ("Bratislava, SLOVENSKA REPUBLIKA".toList) ∧
      containsSub (lowerL ("Slovenska republika".toList))
        (lowerL ("Bratislava, SLOVENSKA REPUBLIKA".toList)) = true := by
  decide

/-- C4 amended: on an input whose tail matches the postal-code pattern, the
    first gazetteer entry matching case-insensitively (in fixed list order)
    sets Country, and City is the remainder with the exact-case occurrences
    of that entry removed by `str.replace` and `", "` stripped from the
    ends — so when the entry occurs only with different casing, nothing is
    removed and City can still contain the country text. -/
theorem C4_amended_first_match (s g1 g2 C : List Char)
    (pre post : List (List Char)) (hne : s ≠ [])
    (hparts : 2 ≤ ((splitOnChar ',' (pyStrip s)).map pyStrip).length)
    (hzip : zipMatch (List.intercalate commaSpace
      (((splitOnChar ',' (pyStrip s)).map pyStrip).tail)) = some (g1, g2))
    (hsplit : countries = pre ++ C :: post)
    (hpre : ∀ e ∈ pre, containsSub (lowerL e) (lowerL (pyStrip g2)) = false)
    (hC : containsSub (lowerL C) (lowerL (pyStrip g2)) = true) :
    parse_address (some s) =
      [("Address", some (((splitOnChar ',' (pyStrip s)).map pyStrip).headD [])),
       ("PostalCode", some (pyStrip g1)),
       ("City",
         if (pyStrip (stripCS (replaceAll C (pyStrip g2)))).isEmpty then none
         else some (pyStrip (stripCS (replaceAll C (pyStrip g2))))),
       ("Country", some C)] ∧
      (¬ occursIn C (pyStrip g2) → replaceAll C (pyStrip g2) = pyStrip g2) := by
  refine ⟨?_, fun hocc => replaceAll_of_not_occurs hocc⟩
  have hne2 : s.isEmpty = false := by
    cases s with
    | nil => exact absurd rfl hne
    | cons x xs => rfl
  simp only [parse_address, hne2, Bool.false_eq_true, if_false]
  rcases hp : (splitOnChar ',' (pyStrip s)).map pyStrip with _ | ⟨p0, ps⟩
  · rw [hp] at hparts
    simp at hparts
  · rcases ps with _ | ⟨p1, rest⟩
    · rw [hp] at hparts
      simp at hparts
    · rw [hp] at hzip
      simp only [List.tail_cons] at hzip
      have hfind : countries.find?
          (fun c => containsSub (lowerL c) (lowerL (pyStrip g2))) = some C := by
        rw [hsplit]
        exact find_first' _ pre C post hpre hC
      simp only [hzip, hfind, List.headD_cons]

/-- C4 amended witness: a well-cased address where the first match is the
    first gazetteer entry; the country is removed and City is clean. -/
theorem C4_amended_witness :
    parse_address
        (some ("Namestie 3, 321 09 Kosice, Slovenska republika".toList)) =
      [("Address", some ("Namestie 3".toList)),
       ("PostalCode", some ("321 09".toList)),
       ("City", some ("Kosice".toList)),
       ("Country", some ("Slovenska republika".toList))] := by
  have h := C4_amended_first_match
    ("Namestie 3, 321 09 Kosice, Slovenska republika".toList)
    ("321 09".toList) ("Kosice, Slovenska republika".toList)
    ("Slovenska republika".toList) [] countries.tail
    (by decide) (by decide) (by decide) rfl (by simp) (by decide)
  exact h.1.trans (by decide)

/-- C5 counterexample: the gazetteer scan can match inside the city text.
    For city "Kanada" and country "Ceska republika" (a gazetteer entry), the
    earlier entry "Kanada" wins the fixed-order scan, so Country and City
    come out swapped instead of exactly as in the input. -/
theorem C5_counterexample :
    ("Ceska republika".toList ∈ countries) ∧
      fieldOf (parse_address
          (some ("Main 1, 12345 Kanada, Ceska republika".toList)))
        "Country" ≠ some ("Ceska republika".toList) ∧
      fieldOf (parse_address
          (some ("Main 1, 12345 Kanada, Ceska republika".toList)))
        "City" ≠ some ("Kanada".toList) := by
  decide

theorem isEmpty_false_of_ne {l : List Char} (h : l ≠ []) :
    l.isEmpty = false := by
  cases hi : l.isEmpty with
  | false => rfl
  | true => exact absurd (List.isEmpty_iff.mp hi) h

/-- Shape facts about every gazetteer entry, checked by evaluation: nonempty,
    comma-free, newline-free, strip-invariant, and neither end is whitespace
    or a `strip(", ")` character. -/
theorem countries_facts : ∀ x ∈ countries, x ≠ [] ∧ ',' ∉ x ∧ '\n' ∉ x ∧
    pyStrip x = x ∧ pyIsSpace (x.headD 'x') = false ∧
    isCS (x.headD 'x') = false ∧ pyIsSpace (x.getLastD 'x') = false ∧
    isCS (x.getLastD 'x') = false := by
  decide

theorem stripCS_append_comma_space {city : List Char} (hcc : ',' ∉ city)
    (hcs : pyStrip city = city) (hcne : city ≠ []) :
    stripCS (city ++ [',', ' ']) = city := by
  obtain ⟨ch0, ctl, hcons⟩ : ∃ ch0 ctl, city = ch0 :: ctl := by
    cases city with
    | nil => exact absurd rfl hcne
    | cons u v => exact ⟨u, v, rfl⟩
  obtain ⟨ct, cl, hconc⟩ := exists_last hcne
  have hch0ws : pyIsSpace ch0 = false := strip_head hcs ch0 ctl hcons
  have hch0 : isCS ch0 = false := by
    have h1 : ch0 ≠ ',' := fun h => hcc (by rw [hcons, h]; exact List.mem_cons_self _ _)
    have h2 : ch0 ≠ ' ' := by
      intro h
      rw [h] at hch0ws
      exact absurd hch0ws (by decide)
    simp [isCS, h1, h2]
  have hclws : pyIsSpace cl = false := strip_last hcs ct cl hconc
  have hcl : isCS cl = false := by
    have h1 : cl ≠ ',' := fun h => hcc (by
      rw [hconc, h]
      exact List.mem_append_right _ (List.mem_cons_self _ _))
    have h2 : cl ≠ ' ' := by
      intro h
      rw [h] at hclws
      exact absurd hclws (by decide)
    simp [isCS, h1, h2]
  have hdw : (city ++ [',', ' ']).dropWhile isCS = city ++ [',', ' '] := by
    rw [hcons, List.cons_append, List.dropWhile_cons, hch0]
    simp
  rw [stripCS, stripBoth_eq_rd, hdw]
  have hshape : city ++ [',', ' '] = (city ++ [',']) ++ [' '] := by simp
  rw [hshape, List.rdropWhile_concat]
  simp only [show isCS ' ' = true from rfl, if_true]
  rw [List.rdropWhile_concat]
  simp only [show isCS ',' = true from rfl, if_true]
  rw [hconc, List.rdropWhile_concat, hcl]
  simp

/-- Evaluation of the postal-code regex on a well-formed tail: group 1 is
    the five digits with the optional internal space, group 2 the rest. -/
theorem zipMatch_eval (a b c d e : Char) (sep rest : List Char)
    (hda : a.isDigit = true) (hdb : b.isDigit = true) (hdc : c.isDigit = true)
    (hdd : d.isDigit = true) (hde : e.isDigit = true)
    (hsep : sep = [] ∨ sep = [' ']) :
    zipMatch ([a, b, c] ++ sep ++ [d, e] ++ rest) =
      some ([a, b, c] ++ sep ++ [d, e], grp2 rest) := by
  rcases hsep with rfl | rfl
  · simp [zipMatch, hda, hdb, hdc, hdd, hde, digit_not_space hdd]
  · simp [zipMatch, hda, hdb, hdc, hdd, hde, show pyIsSpace ' ' = true from rfl]

/-- Group 2 after the zip digits: the single separating space is eaten by
    the greedy whitespace run and the newline-free remainder is kept whole. -/
theorem grp2_space_city (city rest2 : List Char) (hcne : city ≠ [])
    (hcs : pyStrip city = city) (hcn : '\n' ∉ city) (hrn : '\n' ∉ rest2) :
    grp2 (' ' :: (city ++ rest2)) = city ++ rest2 := by
  obtain ⟨ch0, ctl, hcons⟩ : ∃ ch0 ctl, city = ch0 :: ctl := by
    cases city with
    | nil => exact absurd rfl hcne
    | cons u v => exact ⟨u, v, rfl⟩
  have hdw : (' ' :: (city ++ rest2)).dropWhile pyIsSpace = city ++ rest2 := by
    rw [List.dropWhile_cons]
    simp only [show pyIsSpace ' ' = true from rfl, if_true]
    rw [hcons, List.cons_append, List.dropWhile_cons, strip_head hcs ch0 ctl hcons]
    simp
  rw [grp2, hdw]
  apply takeWhile_all
  intro x hx
  have hxn : x ≠ '\n' := by
    rcases List.mem_append.mp hx with h | h
    · exact fun hcontra => hcn (hcontra ▸ h)
    · exact fun hcontra => hrn (hcontra ▸ h)
  simpa using hxn

/-- C5 amended: `parse` recovers line, postal-code text (internal space
    preserved as matched), city and country exactly, PROVIDED the combined
    remainder "city, country" contains no gazetteer entry before the country
    in list order (case-insensitively) and the country does not occur inside
    the city text itself.  Without these provisos the fixed-order scan can
    pick a different country or mangle the city (see the counterexample). -/
theorem C5_amended_exact (L city C : List Char) (a b c d e : Char)
    (sep : List Char) (pre post : List (List Char))
    (hsplit : countries = pre ++ C :: post)
    (hpre : ∀ x ∈ pre,
      containsSub (lowerL x) (lowerL (city ++ (',' :: ' ' :: C))) = false)
    (hninc : containsSub (lowerL C) (lowerL city) = false)
    (hda : a.isDigit = true) (hdb : b.isDigit = true) (hdc : c.isDigit = true)
    (hdd : d.isDigit = true) (hde : e.isDigit = true)
    (hsep : sep = [] ∨ sep = [' '])
    (hLc : ',' ∉ L) (hLs : pyStrip L = L)
    (hcc : ',' ∉ city) (hcn : '\n' ∉ city) (hcs : pyStrip city = city)
    (hcne : city ≠ []) :
    parse_address (some (L ++ commaSpace ++ ([a, b, c] ++ sep ++ [d, e]) ++
        [' '] ++ city ++ commaSpace ++ C)) =
      [("Address", some L),
       ("PostalCode", some ([a, b, c] ++ sep ++ [d, e])),
       ("City", some city), ("Country", some C)] := by
  have hCin : C ∈ countries := by
    rw [hsplit]
    exact List.mem_append_right _ (List.mem_cons_self _ _)
  obtain ⟨f1, f2, f3, f8, f4, f4b, f6, f6b⟩ := countries_facts C hCin
  have hne0 : (L ++ commaSpace ++ ([a, b, c] ++ sep ++ [d, e]) ++
      [' '] ++ city ++ commaSpace ++ C) ≠ [] := by
    simp [commaSpace]
  have hne2 : (L ++ commaSpace ++ ([a, b, c] ++ sep ++ [d, e]) ++
      [' '] ++ city ++ commaSpace ++ C).isEmpty = false :=
    isEmpty_false_of_ne hne0
  obtain ⟨ct, cl, hconcC⟩ := exists_last f1
  have hclws : pyIsSpace cl = false := by
    have := f6
    rw [hconcC, List.getLastD_concat] at this
    exact this
  obtain ⟨ch0, ctl, hconsCity⟩ : ∃ ch0 ctl, city = ch0 :: ctl := by
    cases city with
    | nil => exact absurd rfl hcne
    | cons u v => exact ⟨u, v, rfl⟩
  -- the whole input is strip-invariant: neither end is whitespace
  have hstrip : pyStrip (L ++ commaSpace ++ ([a, b, c] ++ sep ++ [d, e]) ++
      [' '] ++ city ++ commaSpace ++ C) =
      L ++ commaSpace ++ ([a, b, c] ++ sep ++ [d, e]) ++
      [' '] ++ city ++ commaSpace ++ C := by
    apply stripBoth_id_of
    · intro x xs hx
      cases hL2 : L with
      | nil =>
        rw [hL2] at hx
        simp only [commaSpace, List.nil_append] at hx
        have : ',' = x := by
          have h2 : ',' :: (' ' :: ([a, b, c] ++ sep ++ [d, e] ++ [' '] ++
              city ++ [',', ' '] ++ C)) = x :: xs := by
            simpa [List.append_assoc] using hx
          exact (List.cons_eq_cons.mp h2).1
        rw [← this]
        rfl
      | cons y ys =>
        rw [hL2] at hx
        have h2 : y :: (ys ++ commaSpace ++ ([a, b, c] ++ sep ++ [d, e]) ++
            [' '] ++ city ++ commaSpace ++ C) = x :: xs := by
          simpa [List.append_assoc] using hx
        have hxy : y = x := (List.cons_eq_cons.mp h2).1
        rw [← hxy]
        rw [hL2] at hLs
        exact strip_head hLs y ys rfl
    · intro t la hx
      have hs2 : L ++ commaSpace ++ ([a, b, c] ++ sep ++ [d, e]) ++
          [' '] ++ city ++ commaSpace ++ C =
          (L ++ commaSpace ++ ([a, b, c] ++ sep ++ [d, e]) ++
            [' '] ++ city ++ commaSpace ++ ct) ++ [cl] := by
        rw [hconcC]
        simp [List.append_assoc]
      have : la = cl := last_of_two_decomp hx hs2
      rw [this]
      exact hclws
  -- no commas inside the zip block or the city, one comma before the country
  have hpM_nc : ',' ∉ ([a, b, c] ++ sep ++ [d, e]) := by
    intro hm
    rcases List.mem_append.mp hm with h | h
    · rcases List.mem_append.mp h with h2 | h2
      · simp only [List.mem_cons, List.not_mem_nil, or_false] at h2
        rcases h2 with h3 | h3 | h3
        · exact digit_ne_comma hda h3.symm
        · exact digit_ne_comma hdb h3.symm
        · exact digit_ne_comma hdc h3.symm
      · rcases hsep with rfl | rfl
        · cases h2
        · rw [List.mem_singleton] at h2
          exact absurd h2 (by decide)
    · simp only [List.mem_cons, List.not_mem_nil, or_false] at h
      rcases h with h3 | h3
      · exact digit_ne_comma hdd h3.symm
      · exact digit_ne_comma hde h3.symm
  have hmid1_nc : ',' ∉ (' ' :: (([a, b, c] ++ sep ++ [d, e]) ++ [' '] ++ city)) := by
    intro hm
    rcases List.mem_cons.mp hm with h | h
    · exact absurd h (by decide)
    · rcases List.mem_append.mp h with h2 | h2
      · rcases List.mem_append.mp h2 with h3 | h3
        · exact hpM_nc h3
        · rw [List.mem_singleton] at h3
          exact absurd h3 (by decide)
      · exact hcc h2
  have hmid2_nc : ',' ∉ (' ' :: C) := by
    intro hm
    rcases List.mem_cons.mp hm with h | h
    · exact absurd h (by decide)
    · exact f2 h
  have hshape : L ++ commaSpace ++ ([a, b, c] ++ sep ++ [d, e]) ++
      [' '] ++ city ++ commaSpace ++ C =
      L ++ ',' :: ((' ' :: (([a, b, c] ++ sep ++ [d, e]) ++ [' '] ++ city)) ++
        ',' :: (' ' :: C)) := by
    simp [commaSpace, List.append_assoc]
  have hsplitS : splitOnChar ',' (L ++ commaSpace ++
      ([a, b, c] ++ sep ++ [d, e]) ++ [' '] ++ city ++ commaSpace ++ C) =
      [L, ' ' :: (([a, b, c] ++ sep ++ [d, e]) ++ [' '] ++ city), ' ' :: C] := by
    rw [hshape, splitOnChar_append hLc, splitOnChar_append hmid1_nc,
      splitOnChar_not_mem hmid2_nc]
  have hstripMid1 : pyStrip (' ' :: (([a, b, c] ++ sep ++ [d, e]) ++ [' '] ++ city)) =
      ([a, b, c] ++ sep ++ [d, e]) ++ [' '] ++ city := by
    rw [pyStrip_cons_space]
    apply stripBoth_id_of
    · intro x xs hx
      have h2 : a :: (([b, c] ++ sep ++ [d, e]) ++ [' '] ++ city) = x :: xs := by
        simpa [List.append_assoc] using hx
      rw [← (List.cons_eq_cons.mp h2).1]
      exact digit_not_space hda
    · intro t la hx
      obtain ⟨ct2, cl2, hconc2⟩ := exists_last hcne
      have hsh2 : ([a, b, c] ++ sep ++ [d, e]) ++ [' '] ++ city =
          (([a, b, c] ++ sep ++ [d, e]) ++ [' '] ++ ct2) ++ [cl2] := by
        rw [hconc2]
        simp [List.append_assoc]
      have hla : la = cl2 := last_of_two_decomp hx hsh2
      rw [hla]
      exact strip_last hcs ct2 cl2 hconc2
  have hstripMid2 : pyStrip (' ' :: C) = C := by
    rw [pyStrip_cons_space]
    exact f8
  have hparts : (splitOnChar ',' (pyStrip (L ++ commaSpace ++
      ([a, b, c] ++ sep ++ [d, e]) ++ [' '] ++ city ++ commaSpace ++ C))).map
        pyStrip =
      [L, ([a, b, c] ++ sep ++ [d, e]) ++ [' '] ++ city, C] := by
    rw [hstrip, hsplitS]
    simp only [List.map_cons, List.map_nil]
    rw [hLs, hstripMid1, hstripMid2]
  have h3n : '\n' ∉ (',' :: ' ' :: C) := by
    intro hm
    rcases List.mem_cons.mp hm with h | h
    · exact absurd h (by decide)
    rcases List.mem_cons.mp h with h2 | h2
    · exact absurd h2 (by decide)
    · exact f3 h2
  have hgrp : grp2 (' ' :: (city ++ (',' :: ' ' :: C))) =
      city ++ (',' :: ' ' :: C) :=
    grp2_space_city city (',' :: ' ' :: C) hcne hcs hcn h3n
  have hzm : zipMatch ((([a, b, c] ++ sep ++ [d, e]) ++ [' '] ++ city) ++
      commaSpace ++ C) =
      some ([a, b, c] ++ sep ++ [d, e], city ++ (',' :: ' ' :: C)) := by
    have h1 : (([a, b, c] ++ sep ++ [d, e]) ++ [' '] ++ city) ++
        commaSpace ++ C =
        [a, b, c] ++ sep ++ [d, e] ++ (' ' :: (city ++ (',' :: ' ' :: C))) := by
      simp [commaSpace, List.append_assoc]
    rw [h1, zipMatch_eval a b c d e sep _ hda hdb hdc hdd hde hsep, hgrp]
  have hpc : pyStrip ([a, b, c] ++ sep ++ [d, e]) =
      [a, b, c] ++ sep ++ [d, e] := by
    apply stripBoth_id_of
    · intro x xs hx
      have h2 : a :: ([b, c] ++ sep ++ [d, e]) = x :: xs := by
        simpa [List.append_assoc] using hx
      rw [← (List.cons_eq_cons.mp h2).1]
      exact digit_not_space hda
    · intro t la hx
      have hsh2 : [a, b, c] ++ sep ++ [d, e] = ([a, b, c] ++ sep ++ [d]) ++ [e] := by
        simp [List.append_assoc]
      have hla : la = e := last_of_two_decomp hx hsh2
      rw [hla]
      exact digit_not_space hde
  have hcc2 : pyStrip (city ++ (',' :: ' ' :: C)) = city ++ (',' :: ' ' :: C) := by
    apply stripBoth_id_of
    · intro x xs hx
      have h2 : ch0 :: (ctl ++ (',' :: ' ' :: C)) = x :: xs := by
        rw [hconsCity] at hx
        simpa using hx
      rw [← (List.cons_eq_cons.mp h2).1]
      exact strip_head hcs ch0 ctl hconsCity
    · intro t la hx
      have hsh2 : city ++ (',' :: ' ' :: C) = (city ++ (',' :: ' ' :: ct)) ++ [cl] := by
        rw [hconcC]
        simp [List.append_assoc]
      have hla : la = cl := last_of_two_decomp hx hsh2
      rw [hla]
      exact hclws
  have hfind : countries.find?
      (fun x => containsSub (lowerL x) (lowerL (city ++ (',' :: ' ' :: C)))) =
      some C := by
    rw [hsplit]
    apply find_first'
    · exact hpre
    · rw [containsSub_iff]
      have hassoc : city ++ (',' :: ' ' :: C) = (city ++ [',', ' ']) ++ C := by
        simp
      rw [hassoc]
      simp only [lowerL, List.map_append]
      exact occursIn_append_self _ _
  have hocc : ¬ occursIn C city := by
    intro ho
    have hmap : occursIn (lowerL C) (lowerL city) := by
      simpa only [lowerL] using occursIn_map Char.toLower ho
    have h2 := (containsSub_iff (lowerL C) (lowerL city)).mpr hmap
    exact absurd (h2.symm.trans hninc) (by decide)
  have hrepl : replaceAll C (city ++ (',' :: ' ' :: C)) = city ++ [',', ' '] := by
    have hsp2 : ∀ x xs, C = x :: xs → pyIsSpace x = false := by
      intro x xs hx
      have h4 := f4
      rw [hx, List.headD_cons] at h4
      exact h4
    exact replAux_tail f1 f2 hsp2 city _ hocc (le_refl _)
  have hstripCSx : stripCS (city ++ [',', ' ']) = city :=
    stripCS_append_comma_space hcc hcs hcne
  simp only [parse_address, hne2, Bool.false_eq_true, if_false]
  rw [hparts]
  simp only [intercalate_pair, hzm, hpc, hcc2, hfind, hrepl, hstripCSx, hcs,
    isEmpty_false_of_ne hcne, Bool.false_eq_true, if_false]

/-- C5 amended witness: a well-formed address whose country is the last
    gazetteer entry and whose city matches no entry. -/
theorem C5_amended_witness :
    parse_address (some ("Hlavna 7".toList ++ commaSpace ++
        (['0', '1', '0'] ++ [' '] ++ ['0', '1']) ++ [' '] ++ "Zilina".toList ++
        commaSpace ++ "Ceska republika".toList)) =
      [("Address", some ("Hlavna 7".toList)),
       ("PostalCode", some (['0', '1', '0'] ++ [' '] ++ ['0', '1'])),
       ("City", some ("Zilina".toList)),
       ("Country", some ("Ceska republika".toList))] :=
  C5_amended_exact ("Hlavna 7".toList) ("Zilina".toList)
    ("Ceska republika".toList) '0' '1' '0' '0' '1' [' ']
    (countries.take 15) [] (by decide) (by decide) (by decide)
    rfl rfl rfl rfl rfl (Or.inr rfl) (by decide) (by decide) (by decide)
    (by decide) (by decide) (by decide)

/-- A form-group of the detail page: optional label text, optional static
    paragraph text, optional anchor href, as read through BeautifulSoup. -/
structure FormGroup where
  label : Option (List Char)
  value : Option (List Char)
  href : Option (List Char)
deriving DecidableEq

/-- The parsed document (the soup): its form-groups, and the tbody rows of
    the single `table.table` when that table is present (each row the list
    of its td cell texts as extracted by `get_text`). -/
structure Doc where
  groups : List FormGroup
  boRows : Option (List (List (List Char)))
deriving DecidableEq

/-- Scan of `SlovakPartnerScraper.get_field` over the form-groups: the first
    group whose label contains the target substring and which carries a
    static paragraph wins; a matching group without the paragraph is passed
    over and the loop continues. -/
def get_field_go (label_text : List Char) : List FormGroup → Option (List Char)
  | [] => none
  | g :: rest =>
    match g.label with
    | some lt =>
      if containsSub label_text lt then
        match g.value with
        | some v => some v
        | none => get_field_go label_text rest
      else get_field_go label_text rest
    | none => get_field_go label_text rest

/-- `SlovakPartnerScraper.get_field`. -/
def get_field (doc : Doc) (label_text : List Char) : Option (List Char) :=
  get_field_go label_text doc.groups

/-- The fixed base origin prefixed to the relative PDF link. -/
def baseOrigin : List Char := "https://rpvs.gov.sk".toList

/-- Scan of `SlovakPartnerScraper.get_pdf_url` over the form-groups. -/
def get_pdf_url_go (label_text : List Char) : List FormGroup → Option (List Char)
  | [] => none
  | g :: rest =>
    match g.label with
    | some lt =>
      if containsSub label_text lt then
        match g.href with
        | some h2 => some (baseOrigin ++ h2)
        | none => get_pdf_url_go label_text rest
      else get_pdf_url_go label_text rest
    | none => get_pdf_url_go label_text rest

/-- `SlovakPartnerScraper.get_pdf_url`. -/
def get_pdf_url (doc : Doc) (label_text : List Char) : Option (List Char) :=
  get_pdf_url_go label_text doc.groups

/-- The leading label phrase stripped from the first owner column. -/
def menoLabel : List Char := "Meno a priezvisko".toList

/-- The date-of-birth marker the source splits on.  Note it carries the
    diacritic on the a — the source string is "Dátum narodenia". -/
def datumMarker : List Char := "Dátum narodenia".toList

/-- One row of the beneficial-owner table as
    `SlovakPartnerScraper.parse_bo_table` reads it: rows with fewer than 4
    columns yield nothing; otherwise the first column is label-stripped and
    split at the marker, and columns 2 to 4 are taken verbatim. -/
structure BoRaw where
  name : Option (List Char)
  dob : Option (List Char)
  nationality : Option (List Char)
  addressText : Option (List Char)
deriving DecidableEq

def parseRow (cols : List (List Char)) : Option BoRaw :=
  match cols with
  | c0 :: c1 :: c2 :: c3 :: _ =>
    let fc := if leadsWith menoLabel c0 then pyStrip (replaceAll menoLabel c0)
      else c0
    let name_part := pyStrip (takeToSub datumMarker fc)
    some { name := convert_to_english (some name_part),
           dob := convert_to_english (some c1),
           nationality := convert_to_english (some c2),
           addressText := convert_to_english (some c3) }
  | _ => none

/-- `SlovakPartnerScraper.parse_bo_table`. -/
def parse_bo_table (doc : Doc) : List BoRaw :=
  match doc.boRows with
  | none => []
  | some rows => rows.filterMap parseRow

/-- The document of claim C2: one owner row whose first column reads
    "Meno a priezvisko Jan Novak Datum narodenia 1.1.1980" (ASCII, as the
    pipeline transliterates every page before parsing it). -/
def c2doc : Doc :=
  { groups := [],
    boRows := some
      [["Meno a priezvisko Jan Novak Datum narodenia 1.1.1980".toList,
        "1.1.1980".toList, "Slovenska republika".toList,
        "Hlavna 5, 841 04 Bratislava".toList]] }

/-- C2: the owner-table parser strips the label but FAILS to truncate at the
    date-of-birth marker: the source splits on "Dátum narodenia" (with the
    diacritic), which can never occur in the transliterated column text
    "... Datum narodenia ...", so the extracted name keeps the birth-date
    tail instead of being "Jan Novak". -/
theorem C2_name_keeps_marker_tail :
    (parse_bo_table c2doc).map (fun b => b.name) =
      [some ("Jan Novak Datum narodenia 1.1.1980".toList)] ∧
      (parse_bo_table c2doc).map (fun b => b.name) ≠
        [some ("Jan Novak".toList)] := by
  decide

/-- A finalized beneficial owner: the raw address text replaced in place by
    its parsed Address dict, as `scrape_partner` mutates each owner dict. -/
structure Bo where
  name : Option (List Char)
  dob : Option (List Char)
  nationality : Option (List Char)
  address : AddrDict
deriving DecidableEq

/-- One registry record as built by `scrape_partner` (the keys of the Python
    dict become fields; `sourceUrl` is the f-string detail URL). -/
structure Record where
  businessName : Option (List Char)
  ico : Option (List Char)
  address : AddrDict
  verificationDate : Option (List Char)
  verificationDocUrl : Option (List Char)
  beneficialOwners : List Bo
  sourceUrl : List Char
deriving DecidableEq

def adresaLabel : List Char := "Adresa sídla".toList

def obchodneLabel : List Char := "Obchodné meno".toList

def icoLabel : List Char := "IČO".toList

def datumOvereniaLabel : List Char := "Dátum overenia".toList

def verifikacnyLabel : List Char := "Verifikačný dokument (pdf)".toList

/-- `SlovakPartnerScraper.BASE_URL`. -/
def BASE_URL : List Char :=
  "https://rpvs.gov.sk/rpvs/Partner/Partner/Detail/".toList

/-- The detail URL built by the f-string for one partner ID. -/
def mkUrl (partner_id : Nat) : List Char := BASE_URL ++ natToChars partner_id

/-- `SlovakPartnerScraper.scrape_partner` on an already-fetched page: a
    non-success status or an owner-less page yields none; otherwise a record
    is built from the labeled fields, the PDF link and the finalized owner
    list.  (The HTTP fetch and HTML parsing are external; the oracle below
    supplies their outcome.) -/
def scrape_partner (status : Nat) (doc : Doc) (partner_id : Nat) :
    Option Record :=
  if status ≠ 200 then none
  else
    let bos := parse_bo_table doc
    if bos.isEmpty then none
    else
      let full_address := get_field doc adresaLabel
      let parsed_business_address :=
        parse_address (convert_to_english full_address)
      some
        { businessName := convert_to_english (get_field doc obchodneLabel),
          ico := convert_to_english (get_field doc icoLabel),
          address := parsed_business_address,
          verificationDate :=
            convert_to_english (get_field doc datumOvereniaLabel),
          verificationDocUrl :=
            convert_to_english (get_pdf_url doc verifikacnyLabel),
          beneficialOwners := bos.map (fun b =>
            { name := b.name, dob := b.dob, nationality := b.nationality,
              address := parse_address b.addressText }),
          sourceUrl := mkUrl partner_id }

/-- C7: extraction returns none whenever zero owner rows are parsed, and
    every record it does return carries at least one beneficial owner. -/
theorem C7_record_iff_owners (status : Nat) (doc : Doc) (partner_id : Nat) :
    (parse_bo_table doc = [] → scrape_partner status doc partner_id = none) ∧
      (∀ r, scrape_partner status doc partner_id = some r →
        r.beneficialOwners ≠ []) := by
  constructor
  · intro h
    unfold scrape_partner
    by_cases hs : status ≠ 200
    · simp [hs]
    · simp [hs, h]
  · intro r hr
    unfold scrape_partner at hr
    by_cases hs : status ≠ 200
    · simp [hs] at hr
    · simp only [hs, if_false] at hr
      cases hbos : (parse_bo_table doc).isEmpty with
      | true =>
        rw [hbos] at hr
        simp at hr
      | false =>
        rw [hbos] at hr
        simp only [Bool.false_eq_true, if_false, Option.some_inj] at hr
        rw [← hr]
        simp only [ne_eq, List.map_eq_nil_iff]
        intro hnil
        rw [hnil] at hbos
        simp at hbos

/-- A page with an owner table but zero body rows. -/
def docNoRows : Doc := { groups := [], boRows := some [] }

/-- A page with one well-formed owner row and no labeled fields. -/
def docOneRow : Doc :=
  { groups := [],
    boRows := some [["Jana Novakova".toList, "2.2.1985".toList,
      "SR".toList, "Kratka 1".toList]] }

/-- The finalized owner built from the single row of `docOneRow`. -/
def c7bo : Bo :=
  { name := some ("Jana Novakova".toList),
    dob := some ("2.2.1985".toList),
    nationality := some ("SR".toList),
    address := [("Address", some ("Kratka 1".toList)), ("PostalCode", none),
      ("City", none), ("Country", none)] }

/-- The record `scrape_partner` builds from `docOneRow` for ID 5. -/
def c7record : Record :=
  { businessName := none, ico := none, address := [],
    verificationDate := none, verificationDocUrl := none,
    beneficialOwners := [c7bo],
    sourceUrl := mkUrl 5 }

/-- C7 witness: the zero-row page yields none; the one-row page yields a
    record with a nonempty owner list. -/
theorem C7_witness :
    scrape_partner 200 docNoRows 5 = none ∧
      scrape_partner 200 docOneRow 5 = some c7record ∧
      c7record.beneficialOwners ≠ [] :=
  ⟨(C7_record_iff_owners 200 docNoRows 5).1 rfl,
   by decide,
   (C7_record_iff_owners 200 docOneRow 5).2 c7record (by decide)⟩

/-- Outcome of the network call for one ID: `requests.get` raising (caught
    by the per-ID handler), or a response with a status and parsed page. -/
inductive FetchResult where
  | raise : FetchResult
  | page : Nat → Doc → FetchResult
deriving DecidableEq

/-- The environment of one run: the fetch outcome per ID and whether each of
    the two file writes (cache, then output) succeeds for that ID. -/
structure Oracle where
  fetch : Nat → FetchResult
  cacheWriteOk : Nat → Bool
  outputWriteOk : Nat → Bool

/-- The scraper state: the in-memory collection and processed-ID set, plus
    the durable contents of the cache file and the output file. -/
structure St where
  all_data : List Record
  processed : List (List Char)
  cacheFile : List (List Char)
  outputFile : List Record
deriving DecidableEq

/-- Sort key of a cache URL: `int(url.split("/")[-1])`. -/
def urlKey (u : List Char) : Nat := natOfChars ((splitOnChar '/' u).getLastD [])

def insertByKey (u : List Char) : List (List Char) → List (List Char)
  | [] => [u]
  | v :: vs => if urlKey u ≤ urlKey v then u :: v :: vs else v :: insertByKey u vs

/-- `sorted(list(processed_ids), key=...)`: ascending by trailing ID. -/
def sortUrls (l : List (List Char)) : List (List Char) := l.foldr insertByKey []

/-- One iteration of `SlovakPartnerScraper.run` for one partner ID.  A cache
    hit short-circuits; a raised fetch or a none extraction leaves the state
    unchanged; on a record, the in-memory collection and cache are extended
    and then the two files are rewritten.  A failing write leaves that file
    (and, for the cache file, also the output file, whose write is never
    reached) at its old content, but the in-memory mutations made before the
    failure are kept and the per-ID `except Exception` swallows the error —
    exactly as in the source. -/
def step (o : Oracle) (st : St) (partner_id : Nat) : St :=
  let url := mkUrl partner_id
  if url ∈ st.processed then st
  else
    match o.fetch partner_id with
    | FetchResult.raise => st
    | FetchResult.page status doc =>
      match scrape_partner status doc partner_id with
      | none => st
      | some data =>
        let d := st.all_data ++ [data]
        let pr := url :: st.processed
        if o.cacheWriteOk partner_id then
          let cf := sortUrls pr
          if o.outputWriteOk partner_id then
            { all_data := d, processed := pr, cacheFile := cf, outputFile := d }
          else
            { all_data := d, processed := pr, cacheFile := cf,
              outputFile := st.outputFile }
        else
          { all_data := d, processed := pr, cacheFile := st.cacheFile,
            outputFile := st.outputFile }

/-- `SlovakPartnerScraper.run` over an explicit list of IDs (the source
    iterates `range(start, end + 1)`). -/
def run (o : Oracle) (st : St) (ids : List Nat) : St := ids.foldl (step o) st

/-- `run` over the inclusive ID range of the source. -/
def runRange (o : Oracle) (st : St) (start endId : Nat) : St :=
  run o st (List.range' start (endId + 1 - start))

/-- The C8 invariant: every cached URL has a record with that source URL. -/
def CacheInv (st : St) : Prop :=
  ∀ url ∈ st.processed, ∃ r ∈ st.all_data, r.sourceUrl = url

instance (st : St) : Decidable (CacheInv st) := by
  unfold CacheInv
  infer_instance

/-- Every record built by `scrape_partner` carries the URL of its ID. -/
theorem scrape_sourceUrl {status : Nat} {doc : Doc} {partner_id : Nat}
    {r : Record} (h : scrape_partner status doc partner_id = some r) :
    r.sourceUrl = mkUrl partner_id := by
  unfold scrape_partner at h
  by_cases hs : status ≠ 200
  · simp [hs] at h
  · simp only [hs, if_false] at h
    cases hbos : (parse_bo_table doc).isEmpty with
    | true =>
      rw [hbos] at h
      simp at h
    | false =>
      rw [hbos] at h
      simp only [Bool.false_eq_true, if_false, Option.some_inj] at h
      rw [← h]

/-- Case analysis of one loop step: either the state is untouched (cache
    hit, raised fetch, or none extraction), or a record was scraped, and
    then the record is appended and its URL cached in the same step. -/
theorem step_cases (o : Oracle) (st : St) (i : Nat) :
    (step o st i = st ∧ (mkUrl i ∈ st.processed ∨
        o.fetch i = FetchResult.raise ∨
        ∃ status doc, o.fetch i = FetchResult.page status doc ∧
          scrape_partner status doc i = none)) ∨
      ∃ r status doc, mkUrl i ∉ st.processed ∧
        o.fetch i = FetchResult.page status doc ∧
        scrape_partner status doc i = some r ∧
        (step o st i).all_data = st.all_data ++ [r] ∧
        (step o st i).processed = mkUrl i :: st.processed := by
  by_cases hmem : mkUrl i ∈ st.processed
  · exact Or.inl ⟨by simp [step, hmem], Or.inl hmem⟩
  · cases hf : o.fetch i with
    | raise => exact Or.inl ⟨by simp [step, hmem, hf], Or.inr (Or.inl rfl)⟩
    | page status doc =>
      cases hsc : scrape_partner status doc i with
      | none =>
        exact Or.inl ⟨by simp [step, hmem, hf, hsc],
          Or.inr (Or.inr ⟨status, doc, rfl, hsc⟩)⟩
      | some r =>
        refine Or.inr ⟨r, status, doc, hmem, rfl, hsc, ?_, ?_⟩
        · simp only [step, hmem, if_false, hf, hsc]
          split
          · split <;> rfl
          · rfl
        · simp only [step, hmem, if_false, hf, hsc]
          split
          · split <;> rfl
          · rfl

theorem step_inv (o : Oracle) {st : St} (i : Nat) (h : CacheInv st) :
    CacheInv (step o st i) := by
  rcases step_cases o st i with ⟨heq, _⟩ | ⟨r, status, doc, _, hf, hsc, hd, hp⟩
  · rw [heq]
    exact h
  · intro url hu
    rw [hp] at hu
    rcases List.mem_cons.mp hu with rfl | hu2
    · exact ⟨r, by rw [hd]; exact List.mem_append_right _ (List.mem_cons_self _ _),
        scrape_sourceUrl hsc⟩
    · rcases h url hu2 with ⟨r2, hr2, he2⟩
      exact ⟨r2, by rw [hd]; exact List.mem_append_left _ hr2, he2⟩

/-- C8: a URL is cached only in a step that appends a record carrying that
    URL; an ID whose fetch raises or whose extraction returns none is not
    cached; and therefore cache membership implies a matching record exists
    in the collection, throughout every run of the loop. -/
theorem C8_cache_lockstep (o : Oracle) (st : St) (ids : List Nat)
    (hinv : CacheInv st) :
    CacheInv (run o st ids) ∧
      (∀ st2 i, (step o st2 i).processed = st2.processed ∨
        ∃ r status doc, o.fetch i = FetchResult.page status doc ∧
          scrape_partner status doc i = some r ∧ r.sourceUrl = mkUrl i ∧
          (step o st2 i).processed = mkUrl i :: st2.processed ∧
          (step o st2 i).all_data = st2.all_data ++ [r]) ∧
      (∀ st2 i, (o.fetch i = FetchResult.raise ∨
          ∃ status doc, o.fetch i = FetchResult.page status doc ∧
            scrape_partner status doc i = none) →
        (step o st2 i).processed = st2.processed) := by
  refine ⟨?_, ?_, ?_⟩
  · induction ids generalizing st with
    | nil => exact hinv
    | cons i rest ih => exact ih (step o st i) (step_inv o i hinv)
  · intro st2 i
    rcases step_cases o st2 i with ⟨heq, _⟩ | ⟨r, status, doc, _, hf, hsc, hd, hp⟩
    · exact Or.inl (by rw [heq])
    · exact Or.inr ⟨r, status, doc, hf, hsc, scrape_sourceUrl hsc, hp, hd⟩
  · intro st2 i hcase
    rcases step_cases o st2 i with ⟨heq, _⟩ | ⟨r, status, doc, _, hf, hsc, _, _⟩
    · rw [heq]
    · exfalso
      rcases hcase with h1 | ⟨status2, doc2, hf2, hsc2⟩
      · rw [hf] at h1
        cases h1
      · rw [hf] at hf2
        cases hf2
        rw [hsc] at hsc2
        cases hsc2

/-- The empty initial state (fresh output and cache files). -/
def st0 : St := { all_data := [], processed := [], cacheFile := [], outputFile := [] }

/-- An environment in which every ID has a one-owner page and writes work. -/
def oC8 : Oracle :=
  { fetch := fun _ => FetchResult.page 200 docOneRow,
    cacheWriteOk := fun _ => true,
    outputWriteOk := fun _ => true }

/-- C8 witness: the invariant holds of the empty state and is carried
    through a concrete two-ID run. -/
theorem C8_witness : CacheInv st0 ∧ CacheInv (run oC8 st0 [1, 2]) :=
  ⟨by decide, (C8_cache_lockstep oC8 st0 [1, 2] (by decide)).1⟩

/-- Modelled from the spec: the crawl loop in which a persistence failure is
    fatal — "propagates and stops the run".  The step is identical to the
    source step, but a failing cache or output write sets an aborted flag;
    the loop stops at the first aborted step instead of continuing.  The
    source `run` has no such behaviour: its `except Exception` per-ID
    handler also catches write errors. -/
def stepFatal (o : Oracle) (st : St) (partner_id : Nat) : St × Bool :=
  let url := mkUrl partner_id
  if url ∈ st.processed then (st, false)
  else
    match o.fetch partner_id with
    | FetchResult.raise => (st, false)
    | FetchResult.page status doc =>
      match scrape_partner status doc partner_id with
      | none => (st, false)
      | some data =>
        let d := st.all_data ++ [data]
        let pr := url :: st.processed
        if o.cacheWriteOk partner_id then
          let cf := sortUrls pr
          if o.outputWriteOk partner_id then
            ({ all_data := d, processed := pr, cacheFile := cf,
               outputFile := d }, false)
          else
            ({ all_data := d, processed := pr, cacheFile := cf,
               outputFile := st.outputFile }, true)
        else
          ({ all_data := d, processed := pr, cacheFile := st.cacheFile,
             outputFile := st.outputFile }, true)

/-- Modelled from the spec: run with fatal persistence failures. -/
def runFatal (o : Oracle) (st : St) : List Nat → St × Bool
  | [] => (st, false)
  | i :: rest =>
    match stepFatal o st i with
    | (st2, true) => (st2, true)
    | (st2, false) => runFatal o st2 rest

/-- An environment whose cache write fails exactly at ID 1. -/
def oC9 : Oracle :=
  { fetch := fun _ => FetchResult.page 200 docOneRow,
    cacheWriteOk := fun i => if i = 1 then false else true,
    outputWriteOk := fun _ => true }

/-- C9 counterexample: with a failing cache write at ID 1 the source loop
    still processes ID 2 (two records collected, ID 2 cached) — the
    exception is recovered at the per-ID boundary by the `except Exception`
    handler instead of propagating.  The fatal behaviour the claim
    describes, modelled from the spec as `runFatal`, would stop at ID 1
    with a single record and the aborted flag set. -/
theorem C9_counterexample :
    (run oC9 st0 [1, 2]).all_data.length = 2 ∧
      mkUrl 2 ∈ (run oC9 st0 [1, 2]).processed ∧
      (runFatal oC9 st0 [1, 2]).2 = true ∧
      (runFatal oC9 st0 [1, 2]).1.all_data.length = 1 := by
  decide

theorem step_of_mem {o : Oracle} {st : St} {i : Nat}
    (h : mkUrl i ∈ st.processed) : step o st i = st := by
  simp [step, h]

theorem step_of_raise {o : Oracle} {st : St} {i : Nat}
    (h : o.fetch i = FetchResult.raise) : step o st i = st := by
  by_cases hm : mkUrl i ∈ st.processed
  · simp [step, hm]
  · simp [step, hm, h]

theorem step_of_none {o : Oracle} {st : St} {i : Nat} {status : Nat} {doc : Doc}
    (hf : o.fetch i = FetchResult.page status doc)
    (hsc : scrape_partner status doc i = none) : step o st i = st := by
  by_cases hm : mkUrl i ∈ st.processed
  · simp [step, hm]
  · simp [step, hm, hf, hsc]

theorem step_agree (o1 o2 : Oracle) (hf : o1.fetch = o2.fetch)
    (st1 st2 : St) (i : Nat) (h1 : st1.all_data = st2.all_data)
    (h2 : st1.processed = st2.processed) :
    (step o1 st1 i).all_data = (step o2 st2 i).all_data ∧
      (step o1 st1 i).processed = (step o2 st2 i).processed := by
  rcases step_cases o1 st1 i with ⟨heq1, hr1⟩ | ⟨r, status, doc, hm1, hf1, hsc1, hd1, hp1⟩
  · have heq2 : step o2 st2 i = st2 := by
      rcases hr1 with hm | hraise | ⟨status, doc, hpage, hnone⟩
      · exact step_of_mem (h2 ▸ hm)
      · exact step_of_raise (hf ▸ hraise)
      · exact step_of_none (hf ▸ hpage) hnone
    rw [heq1, heq2]
    exact ⟨h1, h2⟩
  · rcases step_cases o2 st2 i with ⟨heq2, hr2⟩ | ⟨r2, status2, doc2, hm2, hf2, hsc2, hd2, hp2⟩
    · exfalso
      rcases hr2 with hm | hraise | ⟨status2, doc2, hpage, hnone⟩
      · exact hm1 (h2.symm ▸ hm)
      · rw [← hf, hf1] at hraise
        cases hraise
      · rw [← hf, hf1] at hpage
        cases hpage
        rw [hsc1] at hnone
        cases hnone
    · rw [← hf, hf1] at hf2
      cases hf2
      rw [hsc1] at hsc2
      cases hsc2
      rw [hd1, hd2, hp1, hp2, h1, h2]
      exact ⟨rfl, rfl⟩

/-- C9 amended: a persistence failure is recovered at the per-ID boundary,
    not fatal.  Two runs over the same fetch outcomes but arbitrary write
    outcomes process the same IDs and build the same in-memory collection
    and cache; write failures can only affect the durable file contents. -/
theorem C9_amended_recovered (o1 o2 : Oracle) (hf : o1.fetch = o2.fetch) :
    ∀ (ids : List Nat) (st1 st2 : St), st1.all_data = st2.all_data →
      st1.processed = st2.processed →
      (run o1 st1 ids).all_data = (run o2 st2 ids).all_data ∧
        (run o1 st1 ids).processed = (run o2 st2 ids).processed := by
  intro ids
  induction ids with
  | nil =>
    intro st1 st2 h1 h2
    exact ⟨h1, h2⟩
  | cons i rest ih =>
    intro st1 st2 h1 h2
    have hstep := step_agree o1 o2 hf st1 st2 i h1 h2
    exact ih (step o1 st1 i) (step o2 st2 i) hstep.1 hstep.2

/-- The same environment as `oC9` but with all writes succeeding. -/
def oC9b : Oracle :=
  { fetch := oC9.fetch,
    cacheWriteOk := fun _ => true,
    outputWriteOk := fun _ => true }

/-- C9 amended witness: the run with the failing cache write at ID 1 and
    the run with all writes succeeding build the same records and cache. -/
theorem C9_amended_witness :
    (run oC9 st0 [1, 2]).all_data = (run oC9b st0 [1, 2]).all_data ∧
      (run oC9 st0 [1, 2]).processed = (run oC9b st0 [1, 2]).processed :=
  C9_amended_recovered oC9 oC9b rfl [1, 2] st0 st0 rfl rfl

/-- C6 witness: the spec's own single-segment example takes the fallback. -/
theorem C6_witness :
    "OnlyOneSegment".toList ≠ ([] : List Char) ∧
      parse_address (some ("OnlyOneSegment".toList)) =
        [("Address", some (pyStrip ("OnlyOneSegment".toList))),
         ("PostalCode", none), ("City", none), ("Country", none)] :=
  ⟨by decide, C6_fallback_total ("OnlyOneSegment".toList) (by decide)
    (Or.inl (by decide))⟩
